import Mathlib

/-!
Verification development for the `glsymbol` package: a TrueType-to-bitmap
text renderer for OpenGL, embedded shallowly from `glsymbol.go`.

Conventions of the embedding:
* Go `int`, `int32` and `rune` values are modelled as `Int`; the `uint8`
  packing accumulator only ever has bits 0..7 set, so it is a `Nat`;
  `uint32` arithmetic (`Pow2`) is `Nat` with explicit `% 4294967296`.
* The sprite-sheet image (`*image.RGBA`) enters the package only through
  the red channel of `img.At(x, y).RGBA()`, so an image is modelled as a
  total function `Img : Int → Int → Nat` returning that red value
  (`image.At` is total in Go as well: zero outside the bounds).
* A Go string iterated with `for ib, b := range str` yields the decoded
  runes together with their byte offsets; a string is modelled as its
  list of runes and byte offsets are recovered with `utf8Len`.
* Calls into the OpenGL API carry no data back into the package state
  (`checkGLError` is assumed to report no error); the draw calls issued
  by `Printf` are recorded as an explicit list of `BlitCmd` values.
* Run-time panics (out-of-range slice index, nil dereference) are
  modelled with `Option`/`Except`.
* The external font libraries (`truetype`, `freetype`) are oracles:
  `TTFData` holds the values `LoadTruetype` reads from the parsed font
  (`ttf.Bounds` and `ttf.HMetric(scale, ttf.Index ch).AdvanceWidth`,
  already at the requested scale), and the pixels freetype has drawn
  onto the sprite sheet are the `Img`.
-/

namespace Glsymbol

/-- Red channel (16 bit, as returned by `color.RGBA()`) of the sprite
sheet at a given coordinate. -/
def Img : Type := Int → Int → Nat

/-- `type Glyph struct` of glsymbol.go: location, size, advance and the
packed bitmap of one glyph.  `BitmapData = []` models a nil Go slice
(the packing code only ever appends to a slice reset to nil, so a nil
slice and an empty one coincide). -/
structure Glyph where
  X : Int
  Y : Int
  Width : Int
  Height : Int
  Advance : Int
  BitmapData : List Nat
deriving DecidableEq, Repr

/-- `type FontConfig struct`: rune boundaries and the flat glyph array. -/
structure FontConfig where
  Low : Int
  High : Int
  Glyphs : List Glyph
deriving DecidableEq, Repr

/-- `type Font struct` of glsymbol.go: `Config` is a pointer, so `none`
models the nil pointer written by `Release`. -/
structure Font where
  Config : Option FontConfig
  MaxGlyphWidth : Int
  MaxGlyphHeight : Int
deriving DecidableEq, Repr

/-- Inner pixel loop of the packing block in `loadFont`
(`for x := 0; x < int(glyph.Width); x++`): `k` counts the remaining
iterations (the invariant is `k = W - x`), `u` is the `uint8`
accumulator, `h = x % 8`, and the byte is flushed when `h == 7` or
`x == W - 1`. -/
def packRowGo (img : Img) (gX gY y : Int) (W : Nat) : Nat → Nat → Nat → List Nat
  | 0, _, _ => []
  | k + 1, x, u =>
    let h := x % 8
    let u' := if 40000 < img ((x : Int) + gX) (y + gY) then u ||| (1 <<< (7 - h)) else u
    if h = 7 ∨ x = W - 1 then u' :: packRowGo img gX gY y W k (x + 1) 0
    else packRowGo img gX gY y W k (x + 1) u'

/-- One packed row of a glyph: the x-loop of `loadFont` run at a fixed
`y`. -/
def packRow (img : Img) (gX gY y : Int) (W : Nat) : List Nat :=
  packRowGo img gX gY y W W 0 0

/-- The y-loop of the packing block
(`for y := glyph.Height; 0 <= y; y--`): rows for `y = n, n-1, ..., 0`,
appended in that order. -/
def packRowsDown (img : Img) (gX gY : Int) (W : Nat) : Nat → List Nat
  | 0 => packRow img gX gY 0 W
  | n + 1 => packRow img gX gY ((n : Int) + 1) W ++ packRowsDown img gX gY W n

/-- Packed bitmap of one glyph (the `prepare bitmap data` block of
`loadFont`): no rows at all when `Height < 0`, otherwise one row for
each `y` from `Height` down to `0`. -/
def packGlyph (img : Img) (gX gY W H : Int) : List Nat :=
  if 0 ≤ H then packRowsDown img gX gY W.toNat H.toNat else []

/-- Effect of the packing block on one glyph record
(`glyph.BitmapData = nil; ... append ...`). -/
def processGlyph (img : Img) (g : Glyph) : Glyph :=
  { g with BitmapData := packGlyph img g.X g.Y g.Width g.Height }

/-- The glyph loop of `loadFont` packs the records `0 ≤ i < High - Low`
(loop condition `i < int(config.High-config.Low)`), leaving every later
record untouched. -/
def processGlyphs (img : Img) : Nat → List Glyph → List Glyph
  | 0, gs => gs
  | _ + 1, [] => []
  | n + 1, g :: gs => processGlyph img g :: processGlyphs img n gs

/-- `if f.MaxGlyphWidth < config.Glyphs[i].Width { ... }` folded over the
processed records, starting from the zero value of a fresh `Font`. -/
def maxWidthGo : Nat → List Glyph → Int → Int
  | 0, _, acc => acc
  | _ + 1, [], acc => acc
  | n + 1, g :: gs, acc => maxWidthGo n gs (if acc < g.Width then g.Width else acc)

/-- `if f.MaxGlyphHeight < config.Glyphs[i].Height { ... }` folded over
the processed records. -/
def maxHeightGo : Nat → List Glyph → Int → Int
  | 0, _, acc => acc
  | _ + 1, [], acc => acc
  | n + 1, g :: gs, acc => maxHeightGo n gs (if acc < g.Height then g.Height else acc)

/-- `loadFont` (glsymbol.go, lines 637-673): packs the first
`High - Low` glyph records and tracks the largest glyph bounds.  `none`
models the index panic raised when the glyph slice is shorter than the
loop bound.  The GL calls (`ShadeModel`, `PixelStorei`) carry no state
and `checkGLError` is assumed to report no error. -/
def loadFont (img : Img) (config : FontConfig) : Option Font :=
  let n := (config.High - config.Low).toNat
  if n ≤ config.Glyphs.length then
    let gs := processGlyphs img n config.Glyphs
    some { Config := some { Low := config.Low, High := config.High, Glyphs := gs },
           MaxGlyphWidth := maxWidthGo n gs 0,
           MaxGlyphHeight := maxHeightGo n gs 0 }
  else none

/-- Glyph list of a font (empty for a released font). -/
def fontGlyphs (f : Font) : List Glyph :=
  match f.Config with
  | none => []
  | some cfg => cfg.Glyphs

/-- `Release` (glsymbol.go, lines 677-679): the released font only has
its `Config` pointer cleared; no display lists exist in this version of
the package (`Printf` blits the bitmap data directly), so no GL handles
are touched. -/
def Release (f : Font) : Font := { f with Config := none }

/-- `GlyphBounds`. -/
def GlyphBounds (f : Font) : Int × Int := (f.MaxGlyphWidth, f.MaxGlyphHeight)

/-- Zero value of `Glyph`, used as the (unreachable) `getD` fallback. -/
def glyphZero : Glyph :=
  { X := 0, Y := 0, Width := 0, Height := 0, Advance := 0, BitmapData := [] }

/-- Accumulating loop of `advanceSize`: `r -= low;
if r >= 0 && int(r) < len(glyphs) { size += glyphs[r].Advance }
else { size += gw }`. -/
def advanceGo (glyphs : List Glyph) (low gw : Int) : List Int → Int → Int
  | [], size => size
  | r :: rest, size =>
    let d := r - low
    if 0 ≤ d ∧ d < (glyphs.length : Int) then
      advanceGo glyphs low gw rest (size + (glyphs.getD d.toNat glyphZero).Advance)
    else advanceGo glyphs low gw rest (size + gw)

/-- `advanceSize`: dereferences `f.Config` (nil after `Release`, hence
`none`), then folds over the runes of the line. -/
def advanceSize (f : Font) (line : List Int) : Option Int :=
  match f.Config with
  | none => none
  | some cfg => some (advanceGo cfg.Glyphs cfg.Low f.MaxGlyphWidth line 0)

/-- `Metrics`: `(0, 0)` for the empty string (before any `Config`
dereference), otherwise the advance sum paired with `MaxGlyphHeight`. -/
def Metrics (f : Font) (text : List Int) : Option (Int × Int) :=
  if text = [] then some (0, 0)
  else (advanceSize f text).map fun s => (s, f.MaxGlyphHeight)

/-- Panics `Printf` can raise: dereferencing a nil `Config`, indexing the
glyph slice out of range at `b - Low`, and taking `&BitmapData[0]` of a
nil slice. -/
inductive GoPanic where
  | nilConfig
  | idxOutOfRange
  | nilBitmapData
deriving DecidableEq, Repr

/-- One `gl.RasterPos2i` + `gl.Bitmap` pair issued by `Printf`. -/
structure BlitCmd where
  rposX : Int
  rposY : Int
  width : Int
  height : Int
  data : List Nat
deriving DecidableEq, Repr

/-- Number of bytes a rune occupies in UTF-8, the amount by which Go's
`for ib, b := range str` advances the byte offset. -/
def utf8Len (b : Int) : Nat :=
  if b < 0x80 then 1 else if b < 0x800 then 2 else if b < 0x10000 then 3 else 4

/-- Character loop of `Printf` (glsymbol.go, lines 691-700): `ib` is the
byte offset of the current rune, and each iteration issues one
`gl.RasterPos2i(int32(x)+Width*int32(ib), int32(y))` followed by one
`gl.Bitmap(Width, Height, ..., &BitmapData[0])`. -/
def printfGo (f : Font) (x y : Int) : List Int → Nat → Except GoPanic (List BlitCmd)
  | [], _ => .ok []
  | b :: rest, ib =>
    match f.Config with
    | none => .error .nilConfig
    | some cfg =>
      let i := b - cfg.Low
      if hi : 0 ≤ i ∧ i.toNat < cfg.Glyphs.length then
        let g := cfg.Glyphs.get ⟨i.toNat, hi.2⟩
        if g.BitmapData = [] then .error .nilBitmapData
        else
          match printfGo f x y rest (ib + utf8Len b) with
          | .ok l => .ok ({ rposX := x + g.Width * (ib : Int), rposY := y,
                            width := g.Width, height := g.Height,
                            data := g.BitmapData } :: l)
          | .error e => .error e
      else .error .idxOutOfRange

/-- `Printf` (glsymbol.go, lines 688-704): `x`, `y` stand for the
already-truncated `int32(x)`, `int32(y)`. -/
def Printf (f : Font) (x y : Int) (str : List Int) : Except GoPanic (List BlitCmd) :=
  printfGo f x y str 0

/-- One smearing step `x |= x >> k` of `Pow2`. -/
def smearStep (k x : Nat) : Nat := x ||| (x >>> k)

/-- `Pow2` (glsymbol.go, lines 708-716): `uint32` arithmetic, i.e. mod
`2^32`; the decrement `x--` wraps, as does the final `x + 1`. -/
def Pow2 (x : Nat) : Nat :=
  (smearStep 16 (smearStep 8 (smearStep 4 (smearStep 2 (smearStep 1
    ((x + 4294967295) % 4294967296))))) + 1) % 4294967296

/-- Oracle for the external truetype parser: the glyph bounding box
`ttf.Bounds(scale)` and the advances
`ttf.HMetric(scale, ttf.Index ch).AdvanceWidth`, already at the loaded
scale. -/
structure TTFData where
  minX : Int
  maxX : Int
  minY : Int
  maxY : Int
  advanceWidth : Int → Int

/-- Glyph-record loop of `LoadTruetype`
(`for ch := low; ch <= high; ch++`): every record of
`make(Charset, high-low+1)` is overwritten with the metrics of its rune;
`gx`, `gy` trace the drawing position, 16 glyphs per image row. -/
def buildGlyphs (ttf : TTFData) (gw gh : Int) : Nat → Nat → Int → Int → Int → List Glyph
  | 0, _, _, _, _ => []
  | count + 1, gi, ch, gx, gy =>
    { X := gx, Y := gy - Int.tdiv gh 2, Width := gw, Height := gh,
      Advance := ttf.advanceWidth ch, BitmapData := [] } ::
    (if gi % 16 = 0 then buildGlyphs ttf gw gh count (gi + 1) (ch + 1) 0 (gy + gh)
     else buildGlyphs ttf gw gh count (gi + 1) (ch + 1) (gx + gw) gy)

/-- `LoadTruetype` (glsymbol.go, lines 728-803).  Reading the stream and
parsing the font are external: a successful parse is the oracle `ttf`,
and `img` is the sprite sheet freetype has drawn.  `none` models the
panic of `make(Charset, high-low+1)` on a negative length.  The
power-of-two dimensions `iw`, `ih` only size that external image. -/
def LoadTruetype (ttf : TTFData) (img : Img) (low high : Int) : Option Font :=
  if high - low + 1 < 0 then none
  else
    let gw := ttf.maxX - ttf.minX
    let gh := ttf.maxY - ttf.minY + 5
    loadFont img { Low := low, High := high,
                   Glyphs := buildGlyphs ttf gw gh (high - low + 1).toNat 0 low 0 0 }

/-- Closed form of the packing accumulator: bits contributed to the byte
of block `j` of a row by the pixel positions `h, h+1, ...` (`fuel` of
them, up to position 7). -/
def byteBitsAux (img : Img) (gX gY y : Int) (W j : Nat) : Nat → Nat → Nat
  | 0, _ => 0
  | fuel + 1, h =>
    (if 8 * j + h < W ∧ 40000 < img (((8 * j + h : Nat) : Int) + gX) (y + gY)
     then 1 <<< (7 - h) else 0) |||
      byteBitsAux img gX gY y W j fuel (h + 1)

/-- Byte `j` of a packed row, in closed form. -/
def rowByte (img : Img) (gX gY y : Int) (W j : Nat) : Nat :=
  byteBitsAux img gX gY y W j 8 0

/-- UTF-8 byte offset of the `i`-th character of a string. -/
def byteOff (str : List Int) (i : Nat) : Nat :=
  ((str.take i).map utf8Len).sum

deriving instance DecidableEq for Except

def imgDot : Img := fun x y => if x = 0 ∧ y = 0 then 65535 else 0

def gA : Glyph := { X := 0, Y := 0, Width := 1, Height := 1, Advance := 3, BitmapData := [] }

def cfgA : FontConfig :=
  { Low := 0, High := 1,
    Glyphs := [gA, { X := 0, Y := 0, Width := 1, Height := 1, Advance := 4, BitmapData := [] }] }

def fontA : Font :=
  { Config := some { Low := 0, High := 1,
                     Glyphs := [{ gA with BitmapData := [0, 128] },
                                { X := 0, Y := 0, Width := 1, Height := 1, Advance := 4,
                                  BitmapData := [] }] },
    MaxGlyphWidth := 1, MaxGlyphHeight := 1 }

def ttfA : TTFData :=
  { minX := 0, maxX := 1, minY := 0, maxY := -4, advanceWidth := fun ch => ch + 7 }

def ttfB : TTFData :=
  { minX := 0, maxX := 1, minY := 0, maxY := -4, advanceWidth := fun _ => 1 }

def cfgB : FontConfig :=
  { Low := 0, High := 1,
    Glyphs := [{ X := 0, Y := 0, Width := 1, Height := 1, Advance := 7, BitmapData := [0, 128] },
               { X := 0, Y := 1, Width := 1, Height := 1, Advance := 8, BitmapData := [] }] }

def fontB : Font := { Config := some cfgB, MaxGlyphWidth := 1, MaxGlyphHeight := 1 }

def cfgC : FontConfig :=
  { Low := 256, High := 258,
    Glyphs := [{ X := 0, Y := 0, Width := 1, Height := 1, Advance := 1, BitmapData := [0, 128] },
               { X := 0, Y := 1, Width := 1, Height := 1, Advance := 1, BitmapData := [0, 0] },
               { X := 1, Y := 1, Width := 1, Height := 1, Advance := 1, BitmapData := [] }] }

def fontC : Font := { Config := some cfgC, MaxGlyphWidth := 1, MaxGlyphHeight := 1 }

def cfgD : FontConfig :=
  { Low := 32, High := 33,
    Glyphs := [{ X := 0, Y := 0, Width := 1, Height := 1, Advance := 39, BitmapData := [0, 128] },
               { X := 0, Y := 1, Width := 1, Height := 1, Advance := 40, BitmapData := [] }] }

def fontD : Font := { Config := some cfgD, MaxGlyphWidth := 1, MaxGlyphHeight := 1 }


theorem testBit_or_shift (n y m : Nat)
    (H : ∀ i, y.testBit i = true ↔ ∃ d, d < m ∧ n.testBit (i + d) = true) :
    ∀ i, (smearStep m y).testBit i = true ↔ ∃ d, d < 2 * m ∧ n.testBit (i + d) = true := by
  intro i
  rw [smearStep, Nat.testBit_or, Bool.or_eq_true, Nat.testBit_shiftRight, H i, H (m + i)]
  constructor
  · rintro (⟨d, hd, hb⟩ | ⟨d, hd, hb⟩)
    · exact ⟨d, by omega, hb⟩
    · exact ⟨m + d, by omega, by rwa [show i + (m + d) = m + i + d by omega]⟩
  · rintro ⟨d, hd, hb⟩
    by_cases hdm : d < m
    · exact Or.inl ⟨d, hdm, hb⟩
    · exact Or.inr ⟨d - m, by omega, by rwa [show m + i + (d - m) = i + d by omega]⟩

theorem smear_testBit (n : Nat) :
    ∀ i, (smearStep 16 (smearStep 8 (smearStep 4 (smearStep 2 (smearStep 1 n))))).testBit i
      = true ↔ ∃ d, d < 32 ∧ n.testBit (i + d) = true := by
  have h0 : ∀ i, n.testBit i = true ↔ ∃ d, d < 1 ∧ n.testBit (i + d) = true := by
    intro i
    constructor
    · intro h; exact ⟨0, Nat.zero_lt_one, by simpa using h⟩
    · rintro ⟨d, hd, hb⟩
      have hd0 : d = 0 := by omega
      subst hd0; simpa using hb
  have h1 : ∀ i, (smearStep 1 n).testBit i = true ↔ ∃ d, d < 2 ∧ n.testBit (i + d) = true := by
    simpa using testBit_or_shift n n 1 h0
  have h2 : ∀ i, (smearStep 2 (smearStep 1 n)).testBit i = true ↔
      ∃ d, d < 4 ∧ n.testBit (i + d) = true := by
    simpa using testBit_or_shift n _ 2 h1
  have h4 : ∀ i, (smearStep 4 (smearStep 2 (smearStep 1 n))).testBit i = true ↔
      ∃ d, d < 8 ∧ n.testBit (i + d) = true := by
    simpa using testBit_or_shift n _ 4 h2
  have h8 : ∀ i, (smearStep 8 (smearStep 4 (smearStep 2 (smearStep 1 n)))).testBit i = true ↔
      ∃ d, d < 16 ∧ n.testBit (i + d) = true := by
    simpa using testBit_or_shift n _ 8 h4
  simpa using testBit_or_shift n _ 16 h8

theorem testBit_log2_self (n : Nat) (hn : n ≠ 0) : n.testBit n.log2 = true := by
  have h1 : 2 ^ n.log2 ≤ n := Nat.log2_self_le hn
  have h2 : n < 2 ^ (n.log2 + 1) := Nat.lt_log2_self
  have hpos : 0 < 2 ^ n.log2 := Nat.two_pow_pos _
  rw [Nat.testBit_to_div_mod]
  have hd : n / 2 ^ n.log2 = 1 := by
    have hlt : n / 2 ^ n.log2 < 2 := by
      apply (Nat.div_lt_iff_lt_mul hpos).2
      rw [Nat.pow_succ] at h2
      omega
    have hge : 1 ≤ n / 2 ^ n.log2 := (Nat.one_le_div_iff hpos).2 h1
    omega
  rw [hd]
  decide

theorem smear_eq (n : Nat) (hn : 0 < n) (hn31 : n < 2 ^ 31) :
    smearStep 16 (smearStep 8 (smearStep 4 (smearStep 2 (smearStep 1 n)))) =
      2 ^ (n.log2 + 1) - 1 := by
  apply Nat.eq_of_testBit_eq
  intro i
  rw [Nat.testBit_two_pow_sub_one]
  by_cases hi : i < n.log2 + 1
  · have hb := (smear_testBit n i).2
      ⟨n.log2 - i, by have := (Nat.log2_lt (by omega)).2 hn31; omega,
        by rw [show i + (n.log2 - i) = n.log2 by omega]; exact testBit_log2_self n (by omega)⟩
    rw [hb, eq_comm, decide_eq_true_eq]; omega
  · have hfalse : (smearStep 16 (smearStep 8 (smearStep 4 (smearStep 2
        (smearStep 1 n))))).testBit i = false := by
      apply Bool.eq_false_iff.mpr
      intro htrue
      obtain ⟨d, hd, hb⟩ := (smear_testBit n i).1 htrue
      have hlt : n < 2 ^ (i + d) :=
        lt_of_lt_of_le Nat.lt_log2_self (Nat.pow_le_pow_right (by omega) (by omega))
      simp [Nat.testBit_lt_two_pow hlt] at hb
    rw [hfalse, eq_comm, decide_eq_false_iff_not]; omega

theorem Pow2_eq_of_ge_two (x : Nat) (h1 : 2 ≤ x) (h2 : x ≤ 2 ^ 31) :
    Pow2 x = 2 ^ ((x - 1).log2 + 1) := by
  have hmod : (x + 4294967295) % 4294967296 = x - 1 := by
    have : (2:Nat) ^ 31 = 2147483648 := by norm_num
    omega
  have hn1 : 0 < x - 1 := by omega
  have hn31 : x - 1 < 2 ^ 31 := by
    have : (2:Nat) ^ 31 = 2147483648 := by norm_num
    omega
  have hlog : (x - 1).log2 < 31 := (Nat.log2_lt (by omega)).2 hn31
  have hple : 2 ^ ((x - 1).log2 + 1) ≤ 2 ^ 31 := Nat.pow_le_pow_right (by omega) (by omega)
  have hppos : 0 < 2 ^ ((x - 1).log2 + 1) := Nat.two_pow_pos _
  rw [Pow2, hmod, smear_eq (x - 1) hn1 hn31]
  have h31 : (2:Nat) ^ 31 = 2147483648 := by norm_num
  omega

/-- C10: for `1 ≤ x ≤ 2^31`, `Pow2 x` is the smallest power of two that
is `≥ x` (so `Pow2 x = x` exactly on powers of two), and `Pow2 0 = 0`. -/
theorem c10_Pow2_least_power_of_two (x : Nat) (hx : x ≤ 2 ^ 31) :
    (x = 0 → Pow2 x = 0) ∧
    (1 ≤ x →
      x ≤ Pow2 x ∧ (∃ k, Pow2 x = 2 ^ k) ∧
      (∀ y, (∃ k, y = 2 ^ k) → x ≤ y → Pow2 x ≤ y) ∧
      (Pow2 x = x ↔ ∃ k, x = 2 ^ k)) := by
  constructor
  · rintro rfl; decide
  · intro h1
    by_cases hx1 : x = 1
    · subst hx1
      have hP1 : Pow2 1 = 1 := by decide
      refine ⟨by omega, ⟨0, by decide⟩, ?_, ?_⟩
      · rintro y ⟨k, rfl⟩ hy
        rw [hP1]
        exact Nat.one_le_two_pow
      · exact ⟨fun _ => ⟨0, by decide⟩, fun _ => hP1⟩
    · have h2x : 2 ≤ x := by omega
      have hP := Pow2_eq_of_ge_two x h2x hx
      have hnlt : x - 1 < 2 ^ ((x - 1).log2 + 1) := Nat.lt_log2_self
      have hxle : x ≤ Pow2 x := by rw [hP]; omega
      have hmin : ∀ y, (∃ k, y = 2 ^ k) → x ≤ y → Pow2 x ≤ y := by
        rintro y ⟨k, rfl⟩ hxy
        have hlk : (x - 1).log2 < k := (Nat.log2_lt (by omega)).2 (by omega)
        rw [hP]
        exact Nat.pow_le_pow_right (by omega) hlk
      refine ⟨hxle, ⟨(x - 1).log2 + 1, hP⟩, hmin, ?_, ?_⟩
      · intro he
        exact ⟨(x - 1).log2 + 1, (hP.symm.trans he).symm⟩
      · rintro ⟨k, hk⟩
        have := hmin x ⟨k, hk⟩ le_rfl
        omega

/-- Witness for C10 at `x = 5`: `Pow2 5` is a power of two at least 5 (in
fact the theorem pins it between 5 and 8 via minimality at `y = 8`). -/
theorem c10_Pow2_least_power_of_two_witness :
    (5 : Nat) ≤ 2 ^ 31 ∧ 1 ≤ 5 ∧
      (5 ≤ Pow2 5 ∧ (∃ k, Pow2 5 = 2 ^ k) ∧
        (∀ y, (∃ k, y = 2 ^ k) → 5 ≤ y → Pow2 5 ≤ y) ∧
        (Pow2 5 = 5 ↔ ∃ k, (5:Nat) = 2 ^ k)) :=
  ⟨by norm_num, by norm_num,
    (c10_Pow2_least_power_of_two 5 (by norm_num)).2 (by norm_num)⟩

theorem byteBitsAux_past (img : Img) (gX gY y : Int) (W j : Nat) :
    ∀ fuel h, W ≤ 8 * j + h → byteBitsAux img gX gY y W j fuel h = 0 := by
  intro fuel
  induction fuel with
  | zero => intro h _; rfl
  | succ fuel ih =>
    intro h hW
    rw [byteBitsAux, if_neg (fun hc => absurd hc.1 (by omega)), ih (h + 1) (by omega)]
    rfl

theorem packRowGo_zero (img : Img) (gX gY y : Int) (W x u : Nat) :
    packRowGo img gX gY y W 0 x u = [] := rfl

theorem packRowGo_block (img : Img) (gX gY y : Int) (W : Nat) :
    ∀ fuel h j u, h + fuel = 7 → 8 * j + h < W →
      packRowGo img gX gY y W (W - (8 * j + h)) (8 * j + h) u =
        (u ||| byteBitsAux img gX gY y W j (fuel + 1) h) ::
          packRowGo img gX gY y W (W - 8 * (j + 1)) (8 * (j + 1)) 0 := by
  intro fuel
  induction fuel with
  | zero =>
    intro h j u h7 hlt
    have hh : h = 7 := by omega
    subst hh
    have hk : W - (8 * j + 7) = (W - (8 * j + 7) - 1) + 1 := by omega
    rw [hk]
    simp only [packRowGo]
    have hmod : (8 * j + 7) % 8 = 7 := by omega
    rw [byteBitsAux, byteBitsAux, if_pos (Or.inl hmod)]
    have ht : W - (8 * j + 7) - 1 = W - 8 * (j + 1) := by omega
    have hx1 : 8 * j + 7 + 1 = 8 * (j + 1) := by omega
    rw [ht, hx1, hmod]
    congr 1
    by_cases hred : 40000 < img (((8 * j + 7 : Nat) : Int) + gX) (y + gY)
    · rw [if_pos hred, if_pos ⟨hlt, hred⟩]
      simp [Nat.or_assoc]
    · rw [if_neg hred, if_neg (fun hc => absurd hc.2 hred)]
      simp
  | succ fuel ih =>
    intro h j u h7 hlt
    have hh : h < 7 := by omega
    have hk : W - (8 * j + h) = (W - (8 * j + h) - 1) + 1 := by omega
    rw [hk]
    simp only [packRowGo]
    have hmod : (8 * j + h) % 8 = h := by omega
    rw [hmod]
    by_cases hend : 8 * j + h = W - 1
    · rw [if_pos (Or.inr hend)]
      have ht : W - (8 * j + h) - 1 = 0 := by omega
      have ht2 : W - 8 * (j + 1) = 0 := by omega
      rw [ht, ht2, packRowGo_zero, packRowGo_zero]
      congr 1
      rw [byteBitsAux, byteBitsAux_past img gX gY y W j (fuel + 1) (h + 1) (by omega)]
      by_cases hred : 40000 < img (((8 * j + h : Nat) : Int) + gX) (y + gY)
      · rw [if_pos hred, if_pos ⟨hlt, hred⟩]
        simp
      · rw [if_neg hred, if_neg (fun hc => absurd hc.2 hred)]
        simp
    · rw [if_neg (by omega)]
      have hx1 : 8 * j + h + 1 = 8 * j + (h + 1) := by omega
      have ht : W - (8 * j + h) - 1 = W - (8 * j + (h + 1)) := by omega
      rw [hx1, ht]
      rw [ih (h + 1) j _ (by omega) (by omega)]
      congr 1
      conv_rhs => rw [byteBitsAux]
      by_cases hred : 40000 < img (((8 * j + h : Nat) : Int) + gX) (y + gY)
      · rw [if_pos hred, if_pos ⟨hlt, hred⟩, Nat.or_assoc]
      · rw [if_neg hred, if_neg (fun hc => absurd hc.2 hred), Nat.zero_or]

theorem packRowGo_blocks (img : Img) (gX gY y : Int) (W : Nat) :
    ∀ d j, j + d = (W + 7) / 8 →
      packRowGo img gX gY y W (W - 8 * j) (8 * j) 0 =
        (List.range' j d).map (rowByte img gX gY y W) := by
  intro d
  induction d with
  | zero =>
    intro j hj
    have hW : W - 8 * j = 0 := by omega
    rw [hW, packRowGo_zero]
    rfl
  | succ d ih =>
    intro j hj
    have hlt : 8 * j < W := by omega
    have hb := packRowGo_block img gX gY y W 7 0 j 0 (by omega) (by omega)
    simp only [Nat.add_zero] at hb
    rw [hb, List.range'_succ, List.map_cons, ih (j + 1) (by omega)]
    congr 1
    rw [Nat.zero_or]
    rfl

theorem packRow_eq (img : Img) (gX gY y : Int) (W : Nat) :
    packRow img gX gY y W =
      (List.range ((W + 7) / 8)).map (rowByte img gX gY y W) := by
  rw [packRow, List.range_eq_range']
  have h := packRowGo_blocks img gX gY y W ((W + 7) / 8) 0 (by omega)
  simpa using h

theorem packRow_length (img : Img) (gX gY y : Int) (W : Nat) :
    (packRow img gX gY y W).length = (W + 7) / 8 := by
  rw [packRow_eq]
  simp

theorem testBit_ite_shift (c : Prop) [Decidable c] (k t : Nat) :
    (if c then 1 <<< k else 0).testBit t = (decide c && decide (k = t)) := by
  split
  · rename_i hc
    rw [Nat.one_shiftLeft, Nat.testBit_two_pow]
    simp [hc]
  · rename_i hc
    simp [hc]

theorem rowByte_testBit (img : Img) (gX gY y : Int) (W j : Nat) (h : Nat) (hh : h < 8) :
    (rowByte img gX gY y W j).testBit (7 - h) = true ↔
      (8 * j + h < W ∧ 40000 < img (((8 * j + h : Nat) : Int) + gX) (y + gY)) := by
  simp only [rowByte, byteBitsAux, Nat.testBit_or, testBit_ite_shift]
  interval_cases h <;> simp

theorem packRowsDown_length (img : Img) (gX gY : Int) (W : Nat) :
    ∀ n, (packRowsDown img gX gY W n).length = (n + 1) * ((W + 7) / 8) := by
  intro n
  induction n with
  | zero => simpa using packRow_length img gX gY 0 W
  | succ n ih =>
    rw [packRowsDown, List.length_append, packRow_length, ih]
    ring

theorem packRowsDown_getElem (img : Img) (gX gY : Int) (W : Nat) :
    ∀ n yy j, yy ≤ n → j < (W + 7) / 8 →
      (packRowsDown img gX gY W n)[(n - yy) * ((W + 7) / 8) + j]? =
        some (rowByte img gX gY (yy : Int) W j) := by
  intro n
  induction n with
  | zero =>
    intro yy j hy hj
    have hy0 : yy = 0 := by omega
    subst hy0
    simp only [packRowsDown, Nat.sub_zero, Nat.zero_mul, Nat.zero_add]
    rw [packRow_eq, List.getElem?_map, List.getElem?_range hj]
    rfl
  | succ n ih =>
    intro yy j hy hj
    simp only [packRowsDown]
    by_cases hyy : yy = n + 1
    · subst hyy
      simp only [Nat.sub_self, Nat.zero_mul, Nat.zero_add]
      rw [List.getElem?_append_left (by rw [packRow_length]; omega)]
      rw [packRow_eq, List.getElem?_map, List.getElem?_range hj]
      push_cast
      rfl
    · have hylt : yy ≤ n := by omega
      have hidx : n + 1 - yy = (n - yy) + 1 := by omega
      rw [hidx, Nat.succ_mul]
      rw [List.getElem?_append_right (by rw [packRow_length]; omega)]
      rw [packRow_length]
      have harith : (n - yy) * ((W + 7) / 8) + (W + 7) / 8 + j - (W + 7) / 8 =
          (n - yy) * ((W + 7) / 8) + j := by omega
      rw [harith]
      exact ih yy j hylt hj

theorem packGlyph_length (img : Img) (gX gY W H : Int) (hH : 0 ≤ H) :
    (packGlyph img gX gY W H).length = (H.toNat + 1) * ((W.toNat + 7) / 8) := by
  rw [packGlyph, if_pos hH]
  exact packRowsDown_length img gX gY W.toNat H.toNat

theorem packGlyph_getElem (img : Img) (gX gY W H : Int) (hH : 0 ≤ H)
    (yy j : Nat) (hy : yy ≤ H.toNat) (hj : j < (W.toNat + 7) / 8) :
    (packGlyph img gX gY W H)[(H.toNat - yy) * ((W.toNat + 7) / 8) + j]? =
      some (rowByte img gX gY (yy : Int) W.toNat j) := by
  rw [packGlyph, if_pos hH]
  exact packRowsDown_getElem img gX gY W.toNat H.toNat yy j hy hj

theorem packRowsDown_eq_join (img : Img) (gX gY : Int) (W : Nat) :
    ∀ n, packRowsDown img gX gY W n =
      (((List.range (n + 1)).reverse).map
        (fun yy : Nat => packRow img gX gY (yy : Int) W)).flatten := by
  intro n
  induction n with
  | zero => simp [packRowsDown, List.range_succ]
  | succ n ih =>
    rw [packRowsDown, ih]
    conv_rhs => rw [List.range_succ]
    simp

theorem processGlyphs_length (img : Img) :
    ∀ n gs, (processGlyphs img n gs).length = gs.length := by
  intro n
  induction n with
  | zero => intro gs; rfl
  | succ n ih =>
    intro gs
    cases gs with
    | nil => rfl
    | cons g gs => simp [processGlyphs, ih]

theorem processGlyphs_getElem_lt (img : Img) :
    ∀ n gs i, i < n →
      (processGlyphs img n gs)[i]? = gs[i]?.map (processGlyph img) := by
  intro n
  induction n with
  | zero => intro gs i hi; omega
  | succ n ih =>
    intro gs i hi
    cases gs with
    | nil => simp [processGlyphs]
    | cons g gs =>
      cases i with
      | zero => simp [processGlyphs]
      | succ i => simpa [processGlyphs] using ih gs i (by omega)

theorem processGlyphs_getElem_ge (img : Img) :
    ∀ n gs i, n ≤ i →
      (processGlyphs img n gs)[i]? = gs[i]? := by
  intro n
  induction n with
  | zero => intro gs i _; rfl
  | succ n ih =>
    intro gs i hi
    cases gs with
    | nil => rfl
    | cons g gs =>
      cases i with
      | zero => omega
      | succ i => simpa [processGlyphs] using ih gs i (by omega)

theorem loadFont_inv (img : Img) (config : FontConfig) (f : Font)
    (hf : loadFont img config = some f) :
    (config.High - config.Low).toNat ≤ config.Glyphs.length ∧
      f.Config = some { Low := config.Low, High := config.High,
                        Glyphs := processGlyphs img
                          (config.High - config.Low).toNat config.Glyphs } ∧
      f.MaxGlyphWidth = maxWidthGo (config.High - config.Low).toNat
        (processGlyphs img (config.High - config.Low).toNat config.Glyphs) 0 ∧
      f.MaxGlyphHeight = maxHeightGo (config.High - config.Low).toNat
        (processGlyphs img (config.High - config.Low).toNat config.Glyphs) 0 := by
  rw [loadFont] at hf
  split at hf
  · rename_i hle
    injection hf with hf
    subst hf
    exact ⟨hle, rfl, rfl, rfl⟩
  · exact absurd hf (by simp)

theorem buildGlyphs_length (ttf : TTFData) (gw gh : Int) :
    ∀ count gi ch gx gy, (buildGlyphs ttf gw gh count gi ch gx gy).length = count := by
  intro count
  induction count with
  | zero => intro gi ch gx gy; rfl
  | succ count ih =>
    intro gi ch gx gy
    rw [buildGlyphs]
    by_cases hgi : gi % 16 = 0
    · rw [if_pos hgi]
      simp [ih]
    · rw [if_neg hgi]
      simp [ih]

theorem buildGlyphs_getElem (ttf : TTFData) (gw gh : Int) :
    ∀ count gi ch gx gy k, k < count →
      ∃ pX pY, (buildGlyphs ttf gw gh count gi ch gx gy)[k]? =
        some { X := pX, Y := pY, Width := gw, Height := gh,
               Advance := ttf.advanceWidth (ch + (k : Int)), BitmapData := [] } := by
  intro count
  induction count with
  | zero => intro gi ch gx gy k hk; omega
  | succ count ih =>
    intro gi ch gx gy k hk
    rw [buildGlyphs]
    cases k with
    | zero =>
      refine ⟨gx, gy - Int.tdiv gh 2, ?_⟩
      by_cases hgi : gi % 16 = 0
      · rw [if_pos hgi]; simp
      · rw [if_neg hgi]; simp
    | succ k =>
      by_cases hgi : gi % 16 = 0
      · rw [if_pos hgi]
        obtain ⟨pX, pY, hp⟩ := ih (gi + 1) (ch + 1) 0 (gy + gh) k (by omega)
        refine ⟨pX, pY, ?_⟩
        rw [List.getElem?_cons_succ, hp]
        congr 3
        push_cast
        ring
      · rw [if_neg hgi]
        obtain ⟨pX, pY, hp⟩ := ih (gi + 1) (ch + 1) (gx + gw) gy k (by omega)
        refine ⟨pX, pY, ?_⟩
        rw [List.getElem?_cons_succ, hp]
        congr 3
        push_cast
        ring

theorem advanceGo_eq (glyphs : List Glyph) (low gw : Int) :
    ∀ line size, advanceGo glyphs low gw line size =
      size + (line.map (fun r =>
        if 0 ≤ r - low ∧ r - low < (glyphs.length : Int)
        then (glyphs.getD (r - low).toNat glyphZero).Advance else gw)).sum := by
  intro line
  induction line with
  | nil => intro size; simp [advanceGo]
  | cons r rest ih =>
    intro size
    rw [List.map_cons, List.sum_cons]
    simp only [advanceGo]
    by_cases hc : 0 ≤ r - low ∧ r - low < (glyphs.length : Int)
    · rw [if_pos hc, if_pos hc, ih]
      ring
    · rw [if_neg hc, if_neg hc, ih]
      ring

theorem byteOff_zero (str : List Int) : byteOff str 0 = 0 := rfl

theorem byteOff_cons_succ (b : Int) (rest : List Int) (i : Nat) :
    byteOff (b :: rest) (i + 1) = utf8Len b + byteOff rest i := by
  simp [byteOff, List.take_succ_cons]

theorem byteOff_ascii (str : List Int) (hstr : ∀ b ∈ str, b < 128) :
    ∀ i, i ≤ str.length → byteOff str i = i := by
  induction str with
  | nil =>
    intro i hi
    have h0 : i = 0 := by simpa using hi
    subst h0
    rfl
  | cons b rest ih =>
    intro i hi
    cases i with
    | zero => rfl
    | succ i =>
      rw [byteOff_cons_succ]
      have hb : utf8Len b = 1 := by
        rw [utf8Len, if_pos (by exact_mod_cast hstr b (by simp))]
      rw [hb, ih (fun b' hb' => hstr b' (by simp [hb'])) i (by simpa using hi)]
      omega

theorem getD_eq_get_of_lt (gs : List Glyph) (i : Nat) (hi : i < gs.length) :
    gs.getD i glyphZero = gs.get ⟨i, hi⟩ := by
  rw [List.getD_eq_getElem?_getD, List.getElem?_eq_getElem hi]
  rfl

theorem printfGo_no_idx_panic (f : Font) (cfg : FontConfig) (hc : f.Config = some cfg)
    (x y : Int) :
    ∀ str ib, (∀ b ∈ str, cfg.Low ≤ b ∧ b - cfg.Low < (cfg.Glyphs.length : Int)) →
      printfGo f x y str ib ≠ .error .idxOutOfRange := by
  intro str
  induction str with
  | nil => intro ib _; simp [printfGo]
  | cons b rest ih =>
    intro ib hin
    obtain ⟨hb1, hb2⟩ := hin b (by simp)
    have hi : 0 ≤ b - cfg.Low ∧ (b - cfg.Low).toNat < cfg.Glyphs.length := ⟨by omega, by omega⟩
    simp only [printfGo, hc]
    rw [dif_pos hi]
    split
    · simp
    · cases hrec : printfGo f x y rest (ib + utf8Len b) with
      | ok l => simp
      | error e =>
        have hne := ih (ib + utf8Len b) (fun b' hb' => hin b' (by simp [hb']))
        rw [hrec] at hne
        simp only []
        intro hcontra
        injection hcontra with he
        exact hne (by rw [he])

theorem printfGo_ok (f : Font) (cfg : FontConfig) (hc : f.Config = some cfg) (x y : Int) :
    ∀ str ib,
      (∀ b ∈ str, cfg.Low ≤ b ∧ b - cfg.Low < (cfg.Glyphs.length : Int) ∧
        (cfg.Glyphs.getD (b - cfg.Low).toNat glyphZero).BitmapData ≠ []) →
      ∃ l : List BlitCmd, printfGo f x y str ib = .ok l ∧ l.length = str.length ∧
        ∀ i b, str[i]? = some b →
          l[i]? = some
            ({ rposX := x + (cfg.Glyphs.getD (b - cfg.Low).toNat glyphZero).Width *
                 ((ib + byteOff str i : Nat) : Int),
               rposY := y,
               width := (cfg.Glyphs.getD (b - cfg.Low).toNat glyphZero).Width,
               height := (cfg.Glyphs.getD (b - cfg.Low).toNat glyphZero).Height,
               data := (cfg.Glyphs.getD (b - cfg.Low).toNat glyphZero).BitmapData } :
               BlitCmd) := by
  intro str
  induction str with
  | nil =>
    intro ib _
    exact ⟨[], rfl, rfl, by intro i b h; simp at h⟩
  | cons b0 rest ih =>
    intro ib hin
    obtain ⟨h1, h2, h3⟩ := hin b0 (by simp)
    have hi : 0 ≤ b0 - cfg.Low ∧ (b0 - cfg.Low).toNat < cfg.Glyphs.length := ⟨by omega, by omega⟩
    obtain ⟨l, hl, hlen, hidx⟩ := ih (ib + utf8Len b0) (fun b hb => hin b (by simp [hb]))
    have hget : cfg.Glyphs.get ⟨(b0 - cfg.Low).toNat, hi.2⟩ =
        cfg.Glyphs.getD (b0 - cfg.Low).toNat glyphZero :=
      (getD_eq_get_of_lt cfg.Glyphs (b0 - cfg.Low).toNat hi.2).symm
    refine ⟨({ rposX := x + (cfg.Glyphs.getD (b0 - cfg.Low).toNat glyphZero).Width * (ib : Int),
               rposY := y,
               width := (cfg.Glyphs.getD (b0 - cfg.Low).toNat glyphZero).Width,
               height := (cfg.Glyphs.getD (b0 - cfg.Low).toNat glyphZero).Height,
               data := (cfg.Glyphs.getD (b0 - cfg.Low).toNat glyphZero).BitmapData } :
               BlitCmd) :: l,
             ?_, by simp [hlen], ?_⟩
    · simp only [printfGo, hc]
      rw [dif_pos hi]
      rw [if_neg (by rw [hget]; exact h3)]
      rw [hl]
      rw [hget]
    · intro i b hib
      cases i with
      | zero =>
        simp only [List.getElem?_cons_zero] at hib
        injection hib with hb
        subst hb
        simp [byteOff_zero]
      | succ i =>
        simp only [List.getElem?_cons_succ] at hib
        rw [List.getElem?_cons_succ]
        rw [hidx i b hib]
        congr 3
        rw [byteOff_cons_succ]
        push_cast
        ring



/-- Claim C1: for every glyph processed by `loadFont`, the packed bitmap
stores pixel `x` of row `y` in bit `7 - (x % 8)` of byte `x / 8` of the
row, the bit is set exactly when the red channel of the source image at
`(x + X, y + Y)` exceeds 40000, every row is flushed to `⌈Width/8⌉`
bytes with zero padding bits, and rows appear bottom-to-top: row `y`
occupies row slot `Height - y` of the bitmap. -/
theorem c1_bit_packing (img : Img) (config : FontConfig) (f : Font)
    (hf : loadFont img config = some f) (i : Nat)
    (hi : i < (config.High - config.Low).toNat)
    (g : Glyph) (hg : config.Glyphs[i]? = some g) (hH : 0 ≤ g.Height) :
    ∃ g' : Glyph, (fontGlyphs f)[i]? = some g' ∧
      g'.BitmapData.length = (g.Height.toNat + 1) * ((g.Width.toNat + 7) / 8) ∧
      ∀ yy j : Nat, yy ≤ g.Height.toNat → j < (g.Width.toNat + 7) / 8 →
        ∃ bByte : Nat,
          g'.BitmapData[(g.Height.toNat - yy) * ((g.Width.toNat + 7) / 8) + j]? = some bByte ∧
          ∀ h : Nat, h < 8 →
            (bByte.testBit (7 - h) = true ↔
              (8 * j + h < g.Width.toNat ∧
                40000 < img (((8 * j + h : Nat) : Int) + g.X) ((yy : Int) + g.Y))) := by
  obtain ⟨hle, hcfg, _, _⟩ := loadFont_inv img config f hf
  have hfg : fontGlyphs f =
      processGlyphs img (config.High - config.Low).toNat config.Glyphs := by
    rw [fontGlyphs, hcfg]
  refine ⟨processGlyph img g, ?_, ?_, ?_⟩
  · rw [hfg, processGlyphs_getElem_lt img _ _ i hi, hg]
    rfl
  · exact packGlyph_length img g.X g.Y g.Width g.Height hH
  · intro yy j hy hj
    refine ⟨rowByte img g.X g.Y (yy : Int) g.Width.toNat j, ?_, ?_⟩
    · exact packGlyph_getElem img g.X g.Y g.Width g.Height hH yy j hy hj
    · intro h hh
      exact rowByte_testBit img g.X g.Y (yy : Int) g.Width.toNat j h hh

/-- Witness for C1 on a concrete 2-record configuration with a 1×1
glyph whose only bright pixel is `(0, 0)`. -/
theorem c1_bit_packing_witness :
    loadFont imgDot cfgA = some fontA ∧ 0 < (cfgA.High - cfgA.Low).toNat ∧
    cfgA.Glyphs[0]? = some gA ∧ (0 : Int) ≤ gA.Height ∧
    (∃ g' : Glyph, (fontGlyphs fontA)[0]? = some g' ∧
      g'.BitmapData.length = (gA.Height.toNat + 1) * ((gA.Width.toNat + 7) / 8) ∧
      ∀ yy j : Nat, yy ≤ gA.Height.toNat → j < (gA.Width.toNat + 7) / 8 →
        ∃ bByte : Nat,
          g'.BitmapData[(gA.Height.toNat - yy) * ((gA.Width.toNat + 7) / 8) + j]? = some bByte ∧
          ∀ h : Nat, h < 8 →
            (bByte.testBit (7 - h) = true ↔
              (8 * j + h < gA.Width.toNat ∧
                40000 < imgDot (((8 * j + h : Nat) : Int) + gA.X) ((yy : Int) + gA.Y)))) :=
  ⟨by decide, by decide, by decide, by decide,
    c1_bit_packing imgDot cfgA fontA (by decide) 0 (by decide) gA (by decide) (by decide)⟩

/-- Counterexample to C2 as stated: the 1×1 glyph `gA` (Width = 1,
Height = 1) is packed by `loadFont` into 2 bytes, not
`⌈Width/8⌉ * Height = 1`: the row loop `for y := Height; 0 <= y; y--`
emits `Height + 1` rows. -/
theorem c2_counterexample :
    loadFont imgDot cfgA = some fontA ∧
    cfgA.Glyphs[0]? = some gA ∧ gA.Width = 1 ∧ gA.Height = 1 ∧
    ((fontGlyphs fontA).getD 0 glyphZero).BitmapData.length = 2 ∧
    ((2 : Nat) ≠ ((gA.Width.toNat + 7) / 8) * gA.Height.toNat) := by
  decide

/-- Claim C2 (amended): for every glyph with `Width > 0` and
`Height > 0` processed by `loadFont`, the packed bitmap consists of
`Height + 1` rows (one per `y` from `Height` down to `0`, inclusive) of
`⌈Width/8⌉` bytes each, so its total length is
`⌈Width/8⌉ * (Height + 1)`. -/
theorem c2_rows_amended (img : Img) (config : FontConfig) (f : Font)
    (hf : loadFont img config = some f) (i : Nat)
    (hi : i < (config.High - config.Low).toNat)
    (g : Glyph) (hg : config.Glyphs[i]? = some g)
    (_hW : 0 < g.Width) (hH : 0 < g.Height) :
    ∃ g' : Glyph, (fontGlyphs f)[i]? = some g' ∧
      g'.BitmapData =
        (((List.range (g.Height.toNat + 1)).reverse).map
          (fun yy : Nat => packRow img g.X g.Y (yy : Int) g.Width.toNat)).flatten ∧
      (∀ yy : Nat, (packRow img g.X g.Y (yy : Int) g.Width.toNat).length =
        (g.Width.toNat + 7) / 8) ∧
      g'.BitmapData.length = ((g.Width.toNat + 7) / 8) * (g.Height.toNat + 1) := by
  obtain ⟨hle, hcfg, _, _⟩ := loadFont_inv img config f hf
  have hfg : fontGlyphs f =
      processGlyphs img (config.High - config.Low).toNat config.Glyphs := by
    rw [fontGlyphs, hcfg]
  refine ⟨processGlyph img g, ?_, ?_, ?_, ?_⟩
  · rw [hfg, processGlyphs_getElem_lt img _ _ i hi, hg]
    rfl
  · show packGlyph img g.X g.Y g.Width g.Height = _
    rw [packGlyph, if_pos (by omega)]
    exact packRowsDown_eq_join img g.X g.Y g.Width.toNat g.Height.toNat
  · intro yy
    exact packRow_length img g.X g.Y (yy : Int) g.Width.toNat
  · show (packGlyph img g.X g.Y g.Width g.Height).length = _
    rw [packGlyph_length img g.X g.Y g.Width g.Height (by omega)]
    ring

/-- Witness for the amended C2 on the concrete 1×1 glyph: 2 rows of 1
byte each. -/
theorem c2_rows_amended_witness :
    loadFont imgDot cfgA = some fontA ∧ 0 < (cfgA.High - cfgA.Low).toNat ∧
    cfgA.Glyphs[0]? = some gA ∧ (0 : Int) < gA.Width ∧ (0 : Int) < gA.Height ∧
    (∃ g' : Glyph, (fontGlyphs fontA)[0]? = some g' ∧
      g'.BitmapData =
        (((List.range (gA.Height.toNat + 1)).reverse).map
          (fun yy : Nat => packRow imgDot gA.X gA.Y (yy : Int) gA.Width.toNat)).flatten ∧
      (∀ yy : Nat, (packRow imgDot gA.X gA.Y (yy : Int) gA.Width.toNat).length =
        (gA.Width.toNat + 7) / 8) ∧
      g'.BitmapData.length = ((gA.Width.toNat + 7) / 8) * (gA.Height.toNat + 1)) :=
  ⟨by decide, by decide, by decide, by decide, by decide,
    c2_rows_amended imgDot cfgA fontA (by decide) 0 (by decide) gA (by decide)
      (by decide) (by decide)⟩

/-- Claim C3 is the code's intent but the code misses it: the glyph loop
of `loadFont` runs `i < High - Low` over `High - Low + 1` records, so
the last record (rune `High`) is never packed and keeps a nil
`BitmapData`, even though `LoadTruetype` rasterized it and filled in its
metrics.  Concretely, loading runes 0..1 packs record 0 but leaves
record 1 empty. -/
theorem c3_last_glyph_never_packed :
    LoadTruetype ttfA imgDot 0 1 = some fontB ∧
    (fontGlyphs fontB).length = 2 ∧
    ((fontGlyphs fontB).getD 0 glyphZero).BitmapData ≠ [] ∧
    ((fontGlyphs fontB).getD 1 glyphZero).BitmapData = [] ∧
    ((fontGlyphs fontB).getD 1 glyphZero).Advance = ttfA.advanceWidth 1 := by
  decide

theorem LoadTruetype_inv (ttf : TTFData) (img : Img) (low high : Int) (f : Font)
    (hf : LoadTruetype ttf img low high = some f) :
    f.Config = some { Low := low, High := high,
                      Glyphs := processGlyphs img (high - low).toNat
                        (buildGlyphs ttf (ttf.maxX - ttf.minX) (ttf.maxY - ttf.minY + 5)
                          (high - low + 1).toNat 0 low 0 0) } := by
  simp only [LoadTruetype] at hf
  split at hf
  · exact absurd hf (by simp)
  · obtain ⟨hle, hcfg, _, _⟩ := loadFont_inv img _ f hf
    exact hcfg

/-- Claim C4: for every rune `ch` in `[low, high]`, `LoadTruetype` sets
the `Advance` of glyph record `ch - low` to the oracle's
`HMetric(scale, Index ch).AdvanceWidth`. -/
theorem c4_advance (ttf : TTFData) (img : Img) (low high ch : Int) (f : Font)
    (hf : LoadTruetype ttf img low high = some f)
    (hlo : low ≤ ch) (hhi : ch ≤ high) :
    ∃ cfg g, f.Config = some cfg ∧
      cfg.Glyphs[(ch - low).toNat]? = some g ∧
      g.Advance = ttf.advanceWidth ch := by
  have hcfg := LoadTruetype_inv ttf img low high f hf
  have hkcnt : (ch - low).toNat < (high - low + 1).toNat := by omega
  obtain ⟨pX, pY, hbgk⟩ := buildGlyphs_getElem ttf (ttf.maxX - ttf.minX)
    (ttf.maxY - ttf.minY + 5) (high - low + 1).toNat 0 low 0 0 (ch - low).toNat hkcnt
  have hchk : low + ((ch - low).toNat : Int) = ch := by omega
  rw [hchk] at hbgk
  by_cases hkn : (ch - low).toNat < (high - low).toNat
  · have hpk := processGlyphs_getElem_lt img (high - low).toNat
      (buildGlyphs ttf (ttf.maxX - ttf.minX) (ttf.maxY - ttf.minY + 5)
        (high - low + 1).toNat 0 low 0 0) (ch - low).toNat hkn
    rw [hbgk] at hpk
    exact ⟨_, _, hcfg, hpk, rfl⟩
  · have hpk := processGlyphs_getElem_ge img (high - low).toNat
      (buildGlyphs ttf (ttf.maxX - ttf.minX) (ttf.maxY - ttf.minY + 5)
        (high - low + 1).toNat 0 low 0 0) (ch - low).toNat (by omega)
    rw [hbgk] at hpk
    exact ⟨_, _, hcfg, hpk, rfl⟩

/-- Witness for C4: loading runes 0..1 against the oracle
`advanceWidth ch = ch + 7` gives record 1 the advance 8. -/
theorem c4_advance_witness :
    LoadTruetype ttfA imgDot 0 1 = some fontB ∧ (0 : Int) ≤ 1 ∧ (1 : Int) ≤ 1 ∧
    (∃ cfg g, fontB.Config = some cfg ∧
      cfg.Glyphs[((1 : Int) - 0).toNat]? = some g ∧
      g.Advance = ttfA.advanceWidth 1) :=
  ⟨by decide, by decide, by decide,
    c4_advance ttfA imgDot 0 1 1 fontB (by decide) (by decide) (by decide)⟩

/-- Counterexample to C5 as stated: the font loaded over runes 256..258
(all in the loaded range) renders the string of two copies of rune 256
with the second blit at `x + Width * 2`, not at `x + Width * 1`:
`Printf` multiplies by the UTF-8 byte offset `ib` of `range str`, and
rune 256 is 2 bytes long. -/
theorem c5_counterexample :
    LoadTruetype ttfB imgDot 256 258 = some fontC ∧
    (∀ b ∈ [(256 : Int), 256], cfgC.Low ≤ b ∧ b ≤ cfgC.High) ∧
    Printf fontC 0 0 [256, 256] =
      .ok [{ rposX := 0, rposY := 0, width := 1, height := 1, data := [0, 128] },
           { rposX := 2, rposY := 0, width := 1, height := 1, data := [0, 128] }] ∧
    (2 : Int) ≠ 0 + 1 * 1 := by
  decide

/-- Claim C5 (amended): for every string whose runes `b` all satisfy
`Low ≤ b`, `b - Low < len(Glyphs)` and have a non-empty packed bitmap
(which excludes rune `High`, whose record is never packed), `Printf`
issues exactly one blit per character, in string order, with that
glyph's `Width`, `Height` and bitmap, at raster position
`(x + Width * byteOff i, y)` where `byteOff i` is the UTF-8 byte offset
of the `i`-th character — equal to `i` whenever every rune of the
string is below `U+0080`. -/
theorem c5_blits_amended (f : Font) (cfg : FontConfig) (hc : f.Config = some cfg)
    (x y : Int) (str : List Int)
    (hin : ∀ b ∈ str, cfg.Low ≤ b ∧ b - cfg.Low < (cfg.Glyphs.length : Int) ∧
      (cfg.Glyphs.getD (b - cfg.Low).toNat glyphZero).BitmapData ≠ []) :
    ∃ l : List BlitCmd, Printf f x y str = .ok l ∧ l.length = str.length ∧
      (∀ i b, str[i]? = some b →
        l[i]? = some
          ({ rposX := x + (cfg.Glyphs.getD (b - cfg.Low).toNat glyphZero).Width *
               ((byteOff str i : Nat) : Int),
             rposY := y,
             width := (cfg.Glyphs.getD (b - cfg.Low).toNat glyphZero).Width,
             height := (cfg.Glyphs.getD (b - cfg.Low).toNat glyphZero).Height,
             data := (cfg.Glyphs.getD (b - cfg.Low).toNat glyphZero).BitmapData } :
             BlitCmd)) ∧
      ((∀ b ∈ str, b < 128) → ∀ i, i ≤ str.length → byteOff str i = i) := by
  obtain ⟨l, hl, hlen, hidx⟩ := printfGo_ok f cfg hc x y str 0 hin
  refine ⟨l, hl, hlen, ?_, fun ha i hi => byteOff_ascii str ha i hi⟩
  intro i b hib
  have h := hidx i b hib
  simpa using h

/-- Witness for the amended C5: both processed runes of the 256..258
font blit in order at byte offsets 0 and 2. -/
theorem c5_blits_amended_witness :
    fontC.Config = some cfgC ∧
    (∀ b ∈ [(256 : Int), 257], cfgC.Low ≤ b ∧ b - cfgC.Low < (cfgC.Glyphs.length : Int) ∧
      (cfgC.Glyphs.getD (b - cfgC.Low).toNat glyphZero).BitmapData ≠ []) ∧
    (∃ l : List BlitCmd, Printf fontC 0 0 [256, 257] = .ok l ∧
      l.length = ([(256 : Int), 257]).length ∧
      (∀ i b, ([(256 : Int), 257])[i]? = some b →
        l[i]? = some
          ({ rposX := 0 + (cfgC.Glyphs.getD (b - cfgC.Low).toNat glyphZero).Width *
               ((byteOff [(256 : Int), 257] i : Nat) : Int),
             rposY := 0,
             width := (cfgC.Glyphs.getD (b - cfgC.Low).toNat glyphZero).Width,
             height := (cfgC.Glyphs.getD (b - cfgC.Low).toNat glyphZero).Height,
             data := (cfgC.Glyphs.getD (b - cfgC.Low).toNat glyphZero).BitmapData } :
             BlitCmd)) ∧
      ((∀ b ∈ [(256 : Int), 257], b < 128) → ∀ i, i ≤ ([(256 : Int), 257]).length →
        byteOff [(256 : Int), 257] i = i)) :=
  ⟨by decide, by decide,
    c5_blits_amended fontC cfgC (by decide) 0 0 [256, 257] (by decide)⟩

/-- Claim C6: `Release` clears the `Config` pointer and modifies no
other field of the `Font` (its only fields are `Config`,
`MaxGlyphWidth`, `MaxGlyphHeight`); afterwards the font cannot render:
any nonempty `Printf` or `Metrics` dereferences the nil `Config`.  In
this version of the package no display lists are ever allocated
(`Printf` blits bitmap data directly), so there are no GL handles to
delete and `Release` performs no GL call. -/
theorem c6_release (f : Font) :
    (Release f).Config = none ∧
    (Release f).MaxGlyphWidth = f.MaxGlyphWidth ∧
    (Release f).MaxGlyphHeight = f.MaxGlyphHeight ∧
    (∀ x y : Int, ∀ str : List Int, str ≠ [] →
      Printf (Release f) x y str = .error .nilConfig) ∧
    (∀ text : List Int, text ≠ [] → Metrics (Release f) text = none) := by
  refine ⟨rfl, rfl, rfl, ?_, ?_⟩
  · intro x y str hs
    cases str with
    | nil => exact absurd rfl hs
    | cons b rest => simp [Printf, printfGo, Release]
  · intro text ht
    rw [Metrics, if_neg ht]
    simp [advanceSize, Release]

/-- Witness for C6 on the concrete loaded font `fontB`. -/
theorem c6_release_witness :
    (Release fontB).Config = none ∧
    (Release fontB).MaxGlyphWidth = fontB.MaxGlyphWidth ∧
    ([(0 : Int)] ≠ ([] : List Int)) ∧
    Printf (Release fontB) 0 0 [0] = .error .nilConfig ∧
    Metrics (Release fontB) [0] = none :=
  ⟨(c6_release fontB).1, (c6_release fontB).2.1, by decide,
    (c6_release fontB).2.2.2.1 0 0 [0] (by decide),
    (c6_release fontB).2.2.2.2 [0] (by decide)⟩

/-- Claim C7: for every successful `LoadTruetype` with `low ≤ high`, the
font's config has `Low = low`, `High = high`, and a flat array of
exactly `high - low + 1` glyph records where record `k` belongs to rune
`low + k` (it carries that rune's advance).  `Metrics`, `Printf` and
`GlyphBounds` never write any `Font` or `FontConfig` field in the
source, which the embedding reflects by modelling them as pure
functions, so the shape established here is permanent. -/
theorem c7_config_shape (ttf : TTFData) (img : Img) (low high : Int) (f : Font)
    (hf : LoadTruetype ttf img low high = some f) (hlh : low ≤ high) :
    ∃ cfg, f.Config = some cfg ∧ cfg.Low = low ∧ cfg.High = high ∧
      (cfg.Glyphs.length : Int) = high - low + 1 ∧
      ∀ k : Nat, k < cfg.Glyphs.length →
        ∃ g, cfg.Glyphs[k]? = some g ∧ g.Advance = ttf.advanceWidth (low + (k : Int)) := by
  have hcfg := LoadTruetype_inv ttf img low high f hf
  refine ⟨_, hcfg, rfl, rfl, ?_, ?_⟩
  · show ((processGlyphs img (high - low).toNat
      (buildGlyphs ttf (ttf.maxX - ttf.minX) (ttf.maxY - ttf.minY + 5)
        (high - low + 1).toNat 0 low 0 0)).length : Int) = high - low + 1
    rw [processGlyphs_length, buildGlyphs_length]
    omega
  · intro k hk
    have hkcnt : k < (high - low + 1).toNat := by
      have hlen := processGlyphs_length img (high - low).toNat
        (buildGlyphs ttf (ttf.maxX - ttf.minX) (ttf.maxY - ttf.minY + 5)
          (high - low + 1).toNat 0 low 0 0)
      have hblen := buildGlyphs_length ttf (ttf.maxX - ttf.minX) (ttf.maxY - ttf.minY + 5)
        (high - low + 1).toNat 0 low 0 0
      have hk' : k < (processGlyphs img (high - low).toNat
        (buildGlyphs ttf (ttf.maxX - ttf.minX) (ttf.maxY - ttf.minY + 5)
          (high - low + 1).toNat 0 low 0 0)).length := hk
      omega
    obtain ⟨pX, pY, hbgk⟩ := buildGlyphs_getElem ttf (ttf.maxX - ttf.minX)
      (ttf.maxY - ttf.minY + 5) (high - low + 1).toNat 0 low 0 0 k hkcnt
    by_cases hkn : k < (high - low).toNat
    · have hpk := processGlyphs_getElem_lt img (high - low).toNat
        (buildGlyphs ttf (ttf.maxX - ttf.minX) (ttf.maxY - ttf.minY + 5)
          (high - low + 1).toNat 0 low 0 0) k hkn
      rw [hbgk] at hpk
      exact ⟨_, hpk, rfl⟩
    · have hpk := processGlyphs_getElem_ge img (high - low).toNat
        (buildGlyphs ttf (ttf.maxX - ttf.minX) (ttf.maxY - ttf.minY + 5)
          (high - low + 1).toNat 0 low 0 0) k (by omega)
      rw [hbgk] at hpk
      exact ⟨_, hpk, rfl⟩

/-- Witness for C7 on the concrete load of runes 0..1. -/
theorem c7_config_shape_witness :
    LoadTruetype ttfA imgDot 0 1 = some fontB ∧ (0 : Int) ≤ 1 ∧
    (∃ cfg, fontB.Config = some cfg ∧ cfg.Low = 0 ∧ cfg.High = 1 ∧
      (cfg.Glyphs.length : Int) = 1 - 0 + 1 ∧
      ∀ k : Nat, k < cfg.Glyphs.length →
        ∃ g, cfg.Glyphs[k]? = some g ∧ g.Advance = ttfA.advanceWidth (0 + (k : Int))) :=
  ⟨by decide, by decide, c7_config_shape ttfA imgDot 0 1 fontB (by decide) (by decide)⟩

/-- Counterexample to C8 as stated: on the font loaded over runes 0..1,
the string consisting of rune 1 lies in
`[Low, Low + len(Glyphs)) = [0, 2)`, every lookup is in bounds, and yet
`Printf` panics: record 1 (rune `High`) was never packed, so
`&BitmapData[0]` indexes a nil slice. -/
theorem c8_counterexample :
    fontB.Config = some cfgB ∧
    (∀ b ∈ [(1 : Int)], cfgB.Low ≤ b ∧ b < cfgB.Low + (cfgB.Glyphs.length : Int)) ∧
    Printf fontB 0 0 [1] = .error .nilBitmapData := by
  decide

/-- Claim C8 (amended): for every string whose characters lie in
`[Low, Low + len(Glyphs))` every glyph-table lookup of `Printf` is in
bounds — no index panic is possible — and `Printf` completes without
any panic provided every referenced record also has a non-empty packed
bitmap; an input containing a character below `Low` (a line break with
`Low = 32`) makes the index negative and the access out of bounds. -/
theorem c8_lookup_amended (f : Font) (cfg : FontConfig) (hc : f.Config = some cfg)
    (x y : Int) (str : List Int)
    (hin : ∀ b ∈ str, cfg.Low ≤ b ∧ b - cfg.Low < (cfg.Glyphs.length : Int)) :
    Printf f x y str ≠ .error .idxOutOfRange ∧
    ((∀ b ∈ str, (cfg.Glyphs.getD (b - cfg.Low).toNat glyphZero).BitmapData ≠ []) →
      ∃ l, Printf f x y str = .ok l) ∧
    Printf fontD 0 0 [10] = .error .idxOutOfRange := by
  refine ⟨printfGo_no_idx_panic f cfg hc x y str 0 hin, ?_, by decide⟩
  intro hbm
  obtain ⟨l, hl, -, -⟩ := printfGo_ok f cfg hc x y str 0
    (fun b hb => ⟨(hin b hb).1, (hin b hb).2, hbm b hb⟩)
  exact ⟨l, hl⟩

/-- Witness for the amended C8 on `fontB` with the in-range,
fully-packed string of rune 0. -/
theorem c8_lookup_amended_witness :
    fontB.Config = some cfgB ∧
    (∀ b ∈ [(0 : Int)], cfgB.Low ≤ b ∧ b - cfgB.Low < (cfgB.Glyphs.length : Int)) ∧
    (Printf fontB 0 0 [0] ≠ .error .idxOutOfRange ∧
      ((∀ b ∈ [(0 : Int)], (cfgB.Glyphs.getD (b - cfgB.Low).toNat glyphZero).BitmapData ≠ []) →
        ∃ l, Printf fontB 0 0 [0] = .ok l) ∧
      Printf fontD 0 0 [10] = .error .idxOutOfRange) :=
  ⟨by decide, by decide, c8_lookup_amended fontB cfgB (by decide) 0 0 [0] (by decide)⟩

/-- Claim C9: `Metrics` returns `(0, 0)` on the empty string and
otherwise pairs `MaxGlyphHeight` with the sum, over the runes of the
text, of the glyph advance when `0 ≤ r - Low < len(Glyphs)` and of
`MaxGlyphWidth` otherwise; it is modelled as a pure function because
the source never writes a `Font` field here. -/
theorem c9_metrics (f : Font) (cfg : FontConfig) (hc : f.Config = some cfg) :
    Metrics f [] = some (0, 0) ∧
    ∀ text : List Int, text ≠ [] →
      Metrics f text = some
        ((text.map fun r =>
          if 0 ≤ r - cfg.Low ∧ r - cfg.Low < (cfg.Glyphs.length : Int)
          then (cfg.Glyphs.getD (r - cfg.Low).toNat glyphZero).Advance
          else f.MaxGlyphWidth).sum, f.MaxGlyphHeight) := by
  constructor
  · rfl
  · intro text ht
    rw [Metrics, if_neg ht]
    simp only [advanceSize, hc]
    rw [advanceGo_eq]
    simp

/-- Witness for C9 on `fontB` with one in-range rune per record plus an
out-of-range rune. -/
theorem c9_metrics_witness :
    fontB.Config = some cfgB ∧ ([(0 : Int), 1, 99] ≠ ([] : List Int)) ∧
    Metrics fontB [0, 1, 99] = some
      (([(0 : Int), 1, 99].map fun r =>
        if 0 ≤ r - cfgB.Low ∧ r - cfgB.Low < (cfgB.Glyphs.length : Int)
        then (cfgB.Glyphs.getD (r - cfgB.Low).toNat glyphZero).Advance
        else fontB.MaxGlyphWidth).sum, fontB.MaxGlyphHeight) :=
  ⟨by decide, by decide,
    (c9_metrics fontB cfgB (by decide)).2 [0, 1, 99] (by decide)⟩

end Glsymbol
